import Mathlib

/-!
# Verification of the jenjoy doc-comment pipeline (src/jenjoy.py)

Shallow embedding of the pure core of `src/jenjoy.py`.  Strings are
modelled as `List Char`.  The Python string primitives the program uses
(`str.find`, `str.rfind`, `str.replace`, `str.replace(a, b, 1)`,
`str.splitlines`, `str.strip`, and the three regexes
`[ \t]*$`, `\w+|[^\w\s]`, `/\*\*.*\*/`) are modelled explicitly below,
restricted to ASCII character classes (the source runs the regexes with
`re.UNICODE`, but every input exercised here is ASCII, and the claims do
not depend on non-ASCII word characters).  `str.splitlines` is modelled
for the `\n`, `\r` and `\r\n` line boundaries (the exotic Python line
boundaries `\v`, `\f`, `\x1c`-`\x1e`, `\x85`, ` `, ` ` are not
modelled).

The tree-sitter parser is an external collaborator: declaration records
(`Decl`) are inputs of the model, and the generation service is an
oracle `List Char → List Char` giving the raw response body for each
declaration source.  The per-run driver `main` (lines 176-233) is
modelled by `runMain`; a `KeyboardInterrupt` arriving during the k-th
generation call is modelled by the `interrupt` argument.
-/

/-- Horizontal whitespace: the character class of the regex `[ \t]*$` in
`extract_doc_comment` (line 34). -/
def isHws (c : Char) : Bool := c == ' ' || c == '\t'

/-- Python `str` whitespace (ASCII part): the characters removed by
`str.strip()` and matched by the regex class `\s`. -/
def isPySpace (c : Char) : Bool :=
  c == ' ' || c == '\t' || c == '\n' || c == '\r' || c == '\x0b' || c == '\x0c'

/-- Regex `\w` (ASCII part): word characters. -/
def isWordChar (c : Char) : Bool := c.isAlphanum || c == '_'

/-- `line.strip() == ""`: the line consists of whitespace only. -/
def isBlankLine (l : List Char) : Bool := l.all isPySpace

/-- `pat` is a prefix of `s`. -/
def isPrefixL : List Char → List Char → Bool
  | [], _ => true
  | _ :: _, [] => false
  | a :: pat, b :: s => a == b && isPrefixL pat s

/-- Python `s.find(pat)`: index of the first occurrence of `pat` in `s`
(`none` models the return value -1). -/
def findSub : List Char → List Char → Option Nat
  | [], pat => if isPrefixL pat [] then some 0 else none
  | c :: rest, pat =>
    if isPrefixL pat (c :: rest) then some 0
    else (findSub rest pat).map (· + 1)

/-- Python `s.find(pat, st)` for a non-negative start index `st`:
first occurrence of `pat` at an index `≥ st`. -/
def findFromNat (s : List Char) (st : Nat) (pat : List Char) : Option Nat :=
  (findSub (s.drop st) pat).map (· + st)

/-- Python `s.rfind(pat)`: index of the last occurrence of `pat` in `s`
(`none` models the return value -1). -/
def rfindSub : List Char → List Char → Option Nat
  | [], pat => if isPrefixL pat [] then some 0 else none
  | c :: rest, pat =>
    match rfindSub rest pat with
    | some i => some (i + 1)
    | none => if isPrefixL pat (c :: rest) then some 0 else none

/-- Python `s.replace(pat, rep, 1)` (also the pure core of
`write_code_snippet_to_file`, lines 129-136): replace the first
occurrence of `pat`, if any. -/
def pyReplaceFirst (s pat rep : List Char) : List Char :=
  match findSub s pat with
  | none => s
  | some i => s.take i ++ rep ++ s.drop (i + pat.length)

/-- Fuel-driven worker for `pyReplaceAll`.  Scans left to right; on a
match of `pat` it emits `rep` and resumes after the matched occurrence,
exactly the left-to-right non-overlapping semantics of Python
`str.replace` for a non-empty pattern.  The fuel starts at the length of
the scanned list and never runs out (each step consumes at least one
character). -/
def praGo (pat rep : List Char) : Nat → List Char → List Char
  | _, [] => []
  | 0, s => s
  | fuel + 1, c :: rest =>
    if pat ≠ [] && isPrefixL pat (c :: rest) then
      rep ++ praGo pat rep fuel (rest.drop (pat.length - 1))
    else
      c :: praGo pat rep fuel rest

/-- Python `s.replace(pat, rep)` (all occurrences, line 229), for a
non-empty pattern; for the empty pattern (never used by the program) it
returns `s` unchanged. -/
def pyReplaceAll (pat rep s : List Char) : List Char :=
  praGo pat rep s.length s

/-- Split off the first line of a text: the line's content and, when a
line terminator (`\n`, `\r\n` or `\r`) was consumed, the text after it
(`none` when the text ends without a terminator). -/
def splitFirstLine : List Char → List Char × Option (List Char)
  | [] => ([], none)
  | c :: rest =>
    if c = '\n' then ([], some rest)
    else if c = '\r' then
      match rest with
      | '\n' :: rest2 => ([], some rest2)
      | _ => ([], some rest)
    else (c :: (splitFirstLine rest).1, (splitFirstLine rest).2)

/-- Fuel-driven worker for `splitlines`: peel one line per step.  The
fuel starts at the text length and never runs out, because
`splitFirstLine` always consumes at least one character.  A terminator
that ends the text produces no further (empty) line, matching Python. -/
def slF : Nat → List Char → List (List Char)
  | _, [] => []
  | 0, _ :: _ => []
  | fuel + 1, c :: cs =>
    (splitFirstLine (c :: cs)).1 ::
      (match (splitFirstLine (c :: cs)).2 with
       | none => []
       | some rest => slF fuel rest)

/-- Python `s.splitlines()` (for the `\n`, `\r`, `\r\n` boundaries):
no trailing empty line for a trailing terminator, `[]` on `""`. -/
def splitlines (s : List Char) : List (List Char) := slF s.length s

/-- `"\n".join` of a list of lines. -/
def joinNL : List (List Char) → List Char
  | [] => []
  | [l] => l
  | l :: ls => l ++ '\n' :: joinNL ls

/-- `"".join` of a list of parts. -/
def joinParts : List (List Char) → List Char
  | [] => []
  | p :: ps => p ++ joinParts ps

/-- Worker for `count_tokens`: `inWord` records whether the scanner is
inside a maximal `\w+` run that has already been counted. -/
def ctGo : Bool → List Char → Nat
  | _, [] => 0
  | inWord, c :: rest =>
    if inWord && isWordChar c then ctGo true rest
    else if isWordChar c then 1 + ctGo true rest
    else if isPySpace c then ctGo false rest
    else 1 + ctGo false rest

/-- `count_tokens` (lines 85-87): `len(re.findall(r"\w+|[^\w\s]", text))`,
the number of maximal word-character runs plus the number of
non-word, non-space characters. -/
def count_tokens (s : List Char) : Nat := ctGo false s

/-- Python `dict` assignment `d[k] = v` on an association list in
insertion order: an existing key keeps its position and gets the new
value, a new key is appended (line 216). -/
def dictInsert (k v : List Char) : List (List Char × List Char) → List (List Char × List Char)
  | [] => [(k, v)]
  | (k1, v1) :: rest => if k1 = k then (k, v) :: rest else (k1, v1) :: dictInsert k v rest

/-- The opening doc-comment marker. -/
def docOpen : List Char := ['/', '*', '*']

/-- The closing doc-comment marker. -/
def docClose : List Char := ['*', '/']

/-- Length of the maximal run of `[ \t]` characters at the end of `l`. -/
def trailingHwsLen : List Char → Nat
  | [] => 0
  | c :: rest =>
    let r := trailingHwsLen rest
    if r = rest.length && isHws c then r + 1 else r

/-- `re.search(r"[ \t]*$", t).start()` (line 34).  In Python, `$` (without
`re.MULTILINE`) matches at the end of the string and also just before a
newline that is the last character.  A run of `[ \t]` cannot contain
that final newline, so the leftmost match of `[ \t]*$` starts at the
beginning of the maximal horizontal-whitespace run that ends at the
leftmost `$` position: with `e` the position of that `$`
(`len(t) - 1` when `t` ends in `'\n'`, else `len(t)`), the match starts
at `e` minus the length of the trailing `[ \t]` run of `t[:e]`. -/
def hwsSearchStart (t : List Char) : Nat :=
  let e := if t.getLast? = some '\n' then t.length - 1 else t.length
  e - trailingHwsLen (t.take e)

/-- `extract_doc_comment` (lines 29-40).  `start = text.rfind("/**")`;
when the marker is present, `start` is moved back to the start of the
leftmost match of `[ \t]*$` in `text[:start]` (the `if prefix:` test on
line 35 is always true, because `[ \t]*$` always matches); then
`end = text.find("*/", start)` and on success `text[start:end+2]` is
returned.  When `rfind` gives -1, Python evaluates
`text.find("*/", -1)`, which searches from `len(text) - 1`, where the
two-character marker `*/` cannot start, so `end = -1` and the whole
`text` is returned. -/
def extract_doc_comment (text : List Char) : List Char :=
  match rfindSub text docOpen with
  | none => text
  | some s =>
    let start := hwsSearchStart (text.take s)
    match findFromNat text start docClose with
    | none => text
    | some e => (text.drop start).take (e + 2 - start)

/-- Index (and content) of the first non-blank line of a list of lines:
the `for idx, line in enumerate(lines): if line.strip(): ... break` loop
of `insert_doc_comment` (lines 45-48). -/
def firstNonBlank : List (List Char) → Option (Nat × List Char)
  | [] => none
  | l :: ls =>
    if isBlankLine l then (firstNonBlank ls).map (fun q => (q.1 + 1, q.2))
    else some (0, l)

/-- Lines 52-54 of `insert_doc_comment`: re-indent each non-blank line
of the doc comment with `indent`, leaving blank lines unpadded, and join
with newlines. -/
def reindentDoc (indent doc : List Char) : List Char :=
  joinNL ((splitlines doc).map (fun l => if isBlankLine l then l else indent ++ l))

/-- Body of `insert_doc_comment` applied to `lines = java_code.splitlines()`
(lines 44-55).  The anchor index `idx` and the `indent` (the
`re.match(r"\s*", line)` prefix of the anchor line) come from the first
non-blank line; the `for`-`else` branch (lines 49-51) yields `idx = 0`,
`indent = ""` when every line is blank (or there are no lines); line 55
is the final concatenation. -/
def insertLines (lines : List (List Char)) (doc_comment : List Char) : List Char :=
  let p := match firstNonBlank lines with
           | some q => (q.1, q.2.takeWhile isPySpace)
           | none => (0, ([] : List Char))
  joinNL (lines.take p.1) ++ (if 0 < p.1 then ['\n'] else [])
    ++ reindentDoc p.2 doc_comment ++ '\n' :: joinNL (lines.drop p.1)

/-- `insert_doc_comment` (lines 42-55). -/
def insert_doc_comment (java_code doc_comment : List Char) : List Char :=
  insertLines (splitlines java_code) doc_comment

/-- The stream marker token `"data: "` (line 208). -/
def dataMarker : List Char := ['d', 'a', 't', 'a', ':', ' ']

/-- The newline escape token `"[h_newline]"` (line 210). -/
def hNewlineTok : List Char :=
  ['[', 'h', '_', 'n', 'e', 'w', 'l', 'i', 'n', 'e', ']']

/-- Per-fragment processing of the stream reassembler (lines 208-210):
`content = line.replace("data: ", "", 1)` followed by
`re.sub(r"\[h_newline\]", "\n", content)`. -/
def processLine (line : List Char) : List Char :=
  pyReplaceAll hNewlineTok ['\n'] (pyReplaceFirst line dataMarker [])

/-- The stream reassembler (lines 205-213): process each fragment and
concatenate the results in arrival order with no separator
(`"".join(comment_parts)`). -/
def reassemble : List (List Char) → List Char
  | [] => []
  | line :: rest => processLine line ++ reassemble rest

/-- `re.search(r"/\*\*.*\*/", line)` needs a `*/` after the `/**` with no
newline in between (`.` does not match `'\n'`); this scans for such a
closing marker. -/
def hasCloseNoNl : List Char → Bool
  | [] => false
  | c :: rest => isPrefixL docClose (c :: rest) || (c != '\n' && hasCloseNoNl rest)

/-- `re.search(r"/\*\*.*\*/", line) is not None` (line 113): some
occurrence of `/**` is followed, with no intervening newline, by `*/`. -/
def matchesDocLine : List Char → Bool
  | [] => false
  | c :: rest =>
    (isPrefixL docOpen (c :: rest) && hasCloseNoNl ((c :: rest).drop 3))
      || matchesDocLine rest

/-- Line 118: the stripped line starts with `"*"` or `"//"`
(a comment-continuation line, which does not stop the lookback). -/
def isContinuation (l : List Char) : Bool :=
  let t := l.dropWhile isPySpace
  isPrefixL ['*'] t || isPrefixL ['/', '/'] t

/-- The index sequence of `range(start_line - 1, max(-1, start_line - 6), -1)`
(line 111): `startLine - 1` down to `max 0 (startLine - 5)`, at most 5
indices, all `< startLine`. -/
def lookbackRange (startLine : Nat) : List Nat :=
  (List.range (min 5 startLine)).map (fun j => startLine - 1 - j)

/-- The lookback loop of `get_method_nodes` (lines 111-119): for each
index, a line matching the one-line doc-comment pattern sets `has_doc`
and stops; a blank or comment-continuation line continues; any other
line stops with `has_doc = False`.  Out-of-range indices read `[]`
(the source never indexes past the end: every index is below the
declaration's start line). -/
def lookback (lines : List (List Char)) : List Nat → Bool
  | [] => false
  | i :: is =>
    let li := lines.getD i []
    if matchesDocLine li then true
    else if isBlankLine li then lookback lines is
    else if isContinuation li then lookback lines is
    else false

/-- The `has_doc` computation of the span locator (lines 106-119) for a
declaration starting on source line `startLine` (0-based). -/
def hasDocLookback (lines : List (List Char)) (startLine : Nat) : Bool :=
  lookback lines (lookbackRange startLine)

/-- A declaration record yielded by `get_method_nodes`: byte range,
source text and the `has_doc` flag.  The tree-sitter parser itself is an
external collaborator, so records are inputs of the driver model. -/
structure Decl where
  startByte : Nat
  endByte : Nat
  source : List Char
  hasDoc : Bool
deriving DecidableEq

/-- Outcome of one run of `main`: the declarations for which a
generation request was issued, the accumulated
`generated_doc_comments` dictionary, whether `send_stop_request` ran,
the `sys.exit` code (`none` = normal termination), and the text written
to the output file (`none` when no write happened). -/
structure RunResult where
  requests : List Decl
  accum : List (List Char × List Char)
  stopRequested : Bool
  exitCode : Option Nat
  written : Option (List Char)
deriving DecidableEq

/-- The per-declaration loop of `main` (lines 192-219).  `intr = some k`
models a `KeyboardInterrupt` raised during the k-th generation call
(0-based count of calls actually made); `genCount` counts the calls made
so far and `acc` is the accumulated dictionary.  Returns the requested
declarations, the final dictionary, and whether the loop was
interrupted. -/
def driverLoop (oracle : List Char → List Char) (intr : Option Nat) :
    List Decl → Nat → List (List Char × List Char) →
    List Decl × List (List Char × List Char) × Bool
  | [], _, acc => ([], acc, false)
  | d :: rest, genCount, acc =>
    if d.hasDoc then driverLoop oracle intr rest genCount acc
    else if 2048 < count_tokens d.source then driverLoop oracle intr rest genCount acc
    else if intr = some genCount then ([], acc, true)
    else
      let llm := oracle d.source
      let merged := insert_doc_comment d.source
        (extract_doc_comment (reassemble (splitlines llm)))
      let r := driverLoop oracle intr rest (genCount + 1) (dictInsert d.source merged acc)
      (d :: r.1, r.2.1, r.2.2)

/-- `main` (lines 176-233) after reading `java_code`: run the loop; on
`KeyboardInterrupt` send the stop request and `sys.exit(1)` with no file
write; otherwise fold `file_content.replace(original, merged)` over the
dictionary in insertion order (lines 226-229) and write the result. -/
def runMain (java_code : List Char) (decls : List Decl)
    (oracle : List Char → List Char) (intr : Option Nat) : RunResult :=
  let r := driverLoop oracle intr decls 0 []
  if r.2.2 then
    { requests := r.1, accum := r.2.1, stopRequested := true
      exitCode := some 1, written := none }
  else
    { requests := r.1, accum := r.2.1, stopRequested := false
      exitCode := none
      written := some (r.2.1.foldl (fun buf pr => pyReplaceAll pr.1 pr.2 buf) java_code) }

/-- Pure core of `write_code_snippet_to_file` (lines 126-138): replace
the first occurrence of `original_code` in the file content, if any.
(This function is never called by `main`; line 229 uses `str.replace`,
which replaces every occurrence.) -/
def write_code_snippet (file_content original_code modified_code : List Char) : List Char :=
  match findSub file_content original_code with
  | none => file_content
  | some i =>
    file_content.take i ++ modified_code ++ file_content.drop (i + original_code.length)

/-- Number of declarations of a run for which a generation call is made
(not already documented, not oversized). -/
def eligibleCount (decls : List Decl) : Nat :=
  (decls.filter (fun d => !d.hasDoc && count_tokens d.source ≤ 2048)).length

/-- The input file of the C2 counterexample run: a documented class
declaration whose body contains an undocumented method declaration. -/
def c2File : List Char := ("/** C */\nclass A\n  void m();\nend A").toList

/-- Source text of the documented class declaration (bytes 9-34 of
`c2File`). -/
def c2Class : List Char := ("class A\n  void m();\nend A").toList

/-- Declaration records of the C2 counterexample run: the documented
class and the undocumented method nested inside it. -/
def c2Decls : List Decl :=
  [⟨9, 34, c2Class, true⟩, ⟨19, 28, ("void m();").toList, false⟩]

/-- Generation-service oracle of the C2 counterexample run. -/
def c2Oracle : List Char → List Char := fun _ => ("data: /** M doc */").toList

/-- The input file of the C1 run: two byte-identical undocumented
method declarations. -/
def c1File : List Char := ("void m();\nq;\nvoid m();").toList

/-- Declaration records of the C1 run: two records with byte-identical
source text. -/
def c1Decls : List Decl :=
  [⟨0, 9, ("void m();").toList, false⟩, ⟨13, 22, ("void m();").toList, false⟩]

/-- Generation-service oracle of the C1 run. -/
def c1Oracle : List Char → List Char := fun _ => ("data: /** M doc */").toList

/-- Merged declaration text produced in the C1 run. -/
def c1Merged : List Char := ("/** M doc */\nvoid m();").toList

/-- Tail of the C8 input file, after the run of 2049 semicolons. -/
def c8Tail : List Char := ("\nvoid m();").toList

/-- Source text of the oversized declaration (2049 one-character tokens
followed by a small nested method), which is also the whole input file
of the C8 run. -/
def c8Big : List Char := List.replicate 2049 ';' ++ c8Tail

/-- The oversized declaration record: its span is the whole file. -/
def c8BigDecl : Decl := ⟨0, 2059, c8Big, false⟩

/-- The small undocumented declaration nested at the end of the
oversized one. -/
def c8SmallDecl : Decl := ⟨2050, 2059, ("void m();").toList, false⟩

/-- Declaration records of the C8 run. -/
def c8Decls : List Decl := [c8BigDecl, c8SmallDecl]

/-- Generation-service oracle of the C8 run. -/
def c8Oracle : List Char → List Char := fun _ => ("data: /** M doc */").toList

/-- Merged text of the small declaration in the C8 run. -/
def c8Merged : List Char := ("/** M doc */\nvoid m();").toList

/-- The text written by the C8 run. -/
def c8Out : List Char := List.replicate 2049 ';' ++ ("\n/** M doc */\nvoid m();").toList

/-- Prefix of `ls` up to and including the first element satisfying `p`
(the whole list when no element satisfies `p`). -/
def takeUntilIncl (p : List Char → Bool) : List (List Char) → List (List Char)
  | [] => []
  | l :: ls => if p l then [l] else l :: takeUntilIncl p ls

/-- Formalisation of the claim's wording for C7: the examined lines are
the at-most-5-line lookback window truncated at (and including) the
first line that is neither blank nor a comment-continuation. -/
def specExamined (lines : List (List Char)) (startLine : Nat) : List (List Char) :=
  takeUntilIncl (fun l => !(isBlankLine l) && !(isContinuation l))
    ((lookbackRange startLine).map (fun i => lines.getD i []))

/-- Formalisation of the claim's wording for C7: `has_doc` holds exactly
when one of the examined lines matches a complete one-line
`/** ... */` block. -/
def specHasDoc (lines : List (List Char)) (startLine : Nat) : Bool :=
  (specExamined lines startLine).any matchesDocLine

/-- Fuel-driven worker for `firstNonBlankStart`: peel one line per
step; `pos` is the byte offset of the start of the current line.  The
fuel starts at the text length and never runs out. -/
def fnbF : Nat → Nat → List Char → Option Nat
  | _, _, [] => none
  | 0, _, _ :: _ => none
  | fuel + 1, pos, c :: cs =>
    if isBlankLine (splitFirstLine (c :: cs)).1 then
      match (splitFirstLine (c :: cs)).2 with
      | none => none
      | some rest => fnbF fuel (pos + ((c :: cs).length - rest.length)) rest
    else some pos

/-- Byte offset of the start of the first non-blank line of a text
(`none` when every line is blank). -/
def firstNonBlankStart (s : List Char) : Option Nat := fnbF s.length 0 s

/-- Formalisation of the claim's wording for C4: the merged text is the
original declaration text with the re-indented doc comment (followed by
a newline) inserted at the byte offset where the first non-blank line
starts; non-blank comment lines are indented by that line's
leading-whitespace prefix, blank comment lines are left unpadded, and
every other byte of the declaration is unchanged.  When every line is
blank the comment goes at the very top with an empty indent. -/
def specInsertDoc (java_code doc_comment : List Char) : List Char :=
  match firstNonBlankStart java_code with
  | some off =>
    java_code.take off
      ++ reindentDoc ((java_code.drop off).takeWhile isPySpace) doc_comment
      ++ '\n' :: java_code.drop off
  | none => reindentDoc [] doc_comment ++ '\n' :: java_code

/-- Tail of the line decomposition: the remaining lines after the first
line, given the remainder returned by `splitFirstLine`. -/
def slTail : Option (List Char) → List (List Char)
  | none => []
  | some rest => splitlines rest

/-! ## Basic lemmas about the string primitives -/

theorem isPrefixL_nil (s : List Char) : isPrefixL [] s = true := by
  cases s <;> rfl

theorem eq_nil_of_isPrefixL_nil {pat : List Char} (h : isPrefixL pat [] = true) :
    pat = [] := by
  cases pat with
  | nil => rfl
  | cons a t => simp [isPrefixL] at h

theorem isPrefixL_length {pat : List Char} :
    ∀ {s : List Char}, isPrefixL pat s = true → pat.length ≤ s.length := by
  induction pat with
  | nil => intro s _; simp
  | cons a t ih =>
    intro s h
    cases s with
    | nil => simp [isPrefixL] at h
    | cons b r =>
      simp only [isPrefixL, Bool.and_eq_true] at h
      simpa using Nat.succ_le_succ (ih h.2)

theorem isPrefixL_append_self : ∀ (pat t : List Char), isPrefixL pat (pat ++ t) = true := by
  intro pat
  induction pat with
  | nil => intro t; simp [isPrefixL_nil]
  | cons a p ih => intro t; simp [isPrefixL, ih]

theorem findSub_nil_empty : ∀ pat : List Char, findSub [] pat = none ∨ pat = [] := by
  intro pat
  cases pat with
  | nil => exact Or.inr rfl
  | cons a t => left; simp [findSub, isPrefixL]

theorem findSub_cons_of_pos {c : Char} {rest pat : List Char}
    (h : isPrefixL pat (c :: rest) = true) : findSub (c :: rest) pat = some 0 := by
  simp [findSub, h]

theorem findSub_cons_of_neg {c : Char} {rest pat : List Char}
    (h : isPrefixL pat (c :: rest) = false) :
    findSub (c :: rest) pat = (findSub rest pat).map (· + 1) := by
  simp [findSub, h]

theorem findSub_none_iff (pat : List Char) :
    ∀ l : List Char, findSub l pat = none ↔ ∀ j, isPrefixL pat (l.drop j) = false := by
  intro l
  induction l with
  | nil =>
    constructor
    · intro h j
      simp only [List.drop_nil]
      by_contra hb
      have : isPrefixL pat [] = true := by
        cases hx : isPrefixL pat []
        · exact absurd hx hb
        · rfl
      simp [findSub, this] at h
    · intro h
      have := h 0
      simp only [List.drop_nil] at this
      simp [findSub, this]
  | cons c rest ih =>
    constructor
    · intro h j
      cases hp : isPrefixL pat (c :: rest)
      · cases j with
        | zero => simpa using hp
        | succ j0 =>
          rw [findSub_cons_of_neg hp] at h
          simp only [Option.map_eq_none'] at h
          exact (ih.mp h) j0
      · rw [findSub_cons_of_pos hp] at h
        exact absurd h (by simp)
    · intro h
      have h0 := h 0
      simp only [List.drop] at h0
      rw [findSub_cons_of_neg h0]
      simp only [Option.map_eq_none']
      exact ih.mpr (fun j => h (j + 1))

theorem findSub_cons_succ {c : Char} {rest pat : List Char} {n : Nat}
    (h : findSub (c :: rest) pat = some (n + 1)) :
    isPrefixL pat (c :: rest) = false ∧ findSub rest pat = some n := by
  cases hp : isPrefixL pat (c :: rest)
  · rw [findSub_cons_of_neg hp] at h
    rcases Option.map_eq_some'.mp h with ⟨a, ha, hn⟩
    have han : a = n := by omega
    exact ⟨rfl, han ▸ ha⟩
  · rw [findSub_cons_of_pos hp] at h
    simp at h

theorem rfindSub_add_le {pat : List Char} :
    ∀ {l : List Char} {i : Nat}, rfindSub l pat = some i → i + pat.length ≤ l.length := by
  intro l
  induction l with
  | nil =>
    intro i h
    by_cases hp : isPrefixL pat [] = true
    · have := eq_nil_of_isPrefixL_nil hp
      subst this
      simp [rfindSub, isPrefixL] at h
      omega
    · have hp' : isPrefixL pat [] = false := by
        cases hx : isPrefixL pat []
        · rfl
        · exact absurd hx hp
      simp [rfindSub, hp'] at h
  | cons c rest ih =>
    intro i h
    simp only [rfindSub] at h
    cases hr : rfindSub rest pat with
    | some j =>
      rw [hr] at h
      have hij : i = j + 1 := by
        have := h
        simp at this
        omega
      subst hij
      have := ih hr
      simp only [List.length_cons]
      omega
    | none =>
      rw [hr] at h
      by_cases hp : isPrefixL pat (c :: rest) = true
      · simp [hp] at h
        subst h
        simpa using isPrefixL_length hp
      · have hp' : isPrefixL pat (c :: rest) = false := by
          cases hx : isPrefixL pat (c :: rest)
          · rfl
          · exact absurd hx hp
        simp [hp'] at h

/-! ## Lemmas about `pyReplaceAll` -/

theorem praGo_congr (pat rep : List Char) :
    ∀ (f1 : Nat) (s : List Char) (f2 : Nat), s.length ≤ f1 → s.length ≤ f2 →
    praGo pat rep f1 s = praGo pat rep f2 s := by
  intro f1
  induction f1 with
  | zero =>
    intro s f2 h1 _
    have : s = [] := by
      cases s with
      | nil => rfl
      | cons c r => simp at h1
    subst this
    cases f2 <;> rfl
  | succ f ih =>
    intro s f2 h1 h2
    cases s with
    | nil => cases f2 <;> rfl
    | cons c rest =>
      cases f2 with
      | zero => simp at h2
      | succ f2' =>
        simp only [praGo]
        by_cases hc : (pat ≠ [] && isPrefixL pat (c :: rest)) = true
        · rw [if_pos hc, if_pos hc]
          have hd : (rest.drop (pat.length - 1)).length ≤ f := by
            have := List.length_drop (pat.length - 1) rest
            simp only [List.length_cons] at h1
            omega
          have hd2 : (rest.drop (pat.length - 1)).length ≤ f2' := by
            have := List.length_drop (pat.length - 1) rest
            simp only [List.length_cons] at h2
            omega
          rw [ih _ _ hd hd2]
        · rw [if_neg hc, if_neg hc]
          have hr : rest.length ≤ f := by simp only [List.length_cons] at h1; omega
          have hr2 : rest.length ≤ f2' := by simp only [List.length_cons] at h2; omega
          rw [ih _ _ hr hr2]

theorem pyReplaceAll_nil (pat rep : List Char) : pyReplaceAll pat rep [] = [] := rfl

theorem pyReplaceAll_cons_skip {pat : List Char} (rep : List Char) {c : Char} {s : List Char}
    (h : isPrefixL pat (c :: s) = false) :
    pyReplaceAll pat rep (c :: s) = c :: pyReplaceAll pat rep s := by
  show praGo pat rep (s.length + 1) (c :: s) = _
  simp [praGo, h, pyReplaceAll]

theorem pyReplaceAll_append_self {pat : List Char} (rep t : List Char) (hp : pat ≠ []) :
    pyReplaceAll pat rep (pat ++ t) = rep ++ pyReplaceAll pat rep t := by
  cases pat with
  | nil => exact absurd rfl hp
  | cons a pat' =>
    show praGo (a :: pat') rep ((pat' ++ t).length + 1) (a :: (pat' ++ t)) = _
    simp only [praGo]
    have hcond : (decide ((a :: pat' : List Char) ≠ [])
        && isPrefixL (a :: pat') (a :: (pat' ++ t))) = true := by
      have hpre := isPrefixL_append_self (a :: pat') t
      simp only [List.cons_append] at hpre
      simp [hpre]
    rw [if_pos hcond]
    have hdrop : (pat' ++ t).drop ((a :: pat').length - 1) = t := by
      simp only [List.length_cons, Nat.add_sub_cancel]
      exact List.drop_left pat' t
    rw [hdrop]
    rw [praGo_congr (a :: pat') rep ((pat' ++ t).length) t t.length
      (by simp [List.length_append]) (Nat.le_refl _)]
    rfl

theorem pyReplaceAll_of_none {pat rep : List Char} :
    ∀ {s : List Char}, findSub s pat = none → pyReplaceAll pat rep s = s := by
  intro s
  induction s with
  | nil => intro _; rfl
  | cons c rest ih =>
    intro h
    cases hp : isPrefixL pat (c :: rest)
    · rw [findSub_cons_of_neg hp] at h
      simp only [Option.map_eq_none'] at h
      rw [pyReplaceAll_cons_skip rep hp, ih h]
    · rw [findSub_cons_of_pos hp] at h
      simp at h

theorem pyReplaceAll_first {pat rep : List Char} (hp : pat ≠ []) :
    ∀ (w rest : List Char), findSub (w ++ pat ++ rest) pat = some w.length →
    pyReplaceAll pat rep (w ++ pat ++ rest) = w ++ rep ++ pyReplaceAll pat rep rest := by
  intro w
  induction w with
  | nil =>
    intro rest _
    simpa using pyReplaceAll_append_self rep rest hp
  | cons c w' ih =>
    intro rest h
    have hcons : findSub (c :: (w' ++ pat ++ rest)) pat = some (w'.length + 1) := by
      simpa using h
    rcases findSub_cons_succ hcons with ⟨hpre, hfind⟩
    calc pyReplaceAll pat rep ((c :: w') ++ pat ++ rest)
        = c :: pyReplaceAll pat rep (w' ++ pat ++ rest) := by
          simpa using pyReplaceAll_cons_skip rep hpre
      _ = c :: (w' ++ rep ++ pyReplaceAll pat rep rest) := by rw [ih rest hfind]
      _ = (c :: w') ++ rep ++ pyReplaceAll pat rep rest := by simp

theorem pyReplaceAll_two {pat rep : List Char} {x y z : List Char}
    (h1 : findSub (x ++ pat ++ (y ++ pat ++ z)) pat = some x.length)
    (h2 : findSub (y ++ pat ++ z) pat = some y.length)
    (h3 : findSub z pat = none) :
    pyReplaceAll pat rep (x ++ pat ++ (y ++ pat ++ z)) = x ++ rep ++ (y ++ rep ++ z) := by
  have hp : pat ≠ [] := by
    intro hnil
    subst hnil
    cases z with
    | nil => simp [findSub, isPrefixL] at h3
    | cons c r => simp [findSub, isPrefixL] at h3
  rw [pyReplaceAll_first hp x (y ++ pat ++ z) h1,
      pyReplaceAll_first hp y z h2, pyReplaceAll_of_none h3]

/-! ## Lemmas about the pipeline driver -/

theorem driverLoop_skip_doc (oracle : List Char → List Char) (intr : Option Nat)
    {d : Decl} (rest : List Decl) (gc : Nat) (acc : List (List Char × List Char))
    (h : d.hasDoc = true) :
    driverLoop oracle intr (d :: rest) gc acc = driverLoop oracle intr rest gc acc := by
  simp [driverLoop, h]

theorem driverLoop_skip_big (oracle : List Char → List Char) (intr : Option Nat)
    {d : Decl} (rest : List Decl) (gc : Nat) (acc : List (List Char × List Char))
    (h : d.hasDoc = false) (hbig : 2048 < count_tokens d.source) :
    driverLoop oracle intr (d :: rest) gc acc = driverLoop oracle intr rest gc acc := by
  simp [driverLoop, h, hbig]

theorem driverLoop_gen (oracle : List Char → List Char) (intr : Option Nat)
    {d : Decl} (rest : List Decl) (gc : Nat) (acc : List (List Char × List Char))
    (h : d.hasDoc = false) (hsmall : count_tokens d.source ≤ 2048)
    (hintr : intr ≠ some gc) :
    driverLoop oracle intr (d :: rest) gc acc =
      ((d :: (driverLoop oracle intr rest (gc + 1)
          (dictInsert d.source
            (insert_doc_comment d.source
              (extract_doc_comment (reassemble (splitlines (oracle d.source))))) acc)).1,
        (driverLoop oracle intr rest (gc + 1)
          (dictInsert d.source
            (insert_doc_comment d.source
              (extract_doc_comment (reassemble (splitlines (oracle d.source))))) acc)).2.1,
        (driverLoop oracle intr rest (gc + 1)
          (dictInsert d.source
            (insert_doc_comment d.source
              (extract_doc_comment (reassemble (splitlines (oracle d.source))))) acc)).2.2)) := by
  have hb : ¬ (2048 < count_tokens d.source) := by omega
  simp [driverLoop, h, hb, hintr]

theorem driverLoop_requests_hasDoc (oracle : List Char → List Char) (intr : Option Nat) :
    ∀ (decls : List Decl) (gc : Nat) (acc : List (List Char × List Char)) (d : Decl),
    d ∈ (driverLoop oracle intr decls gc acc).1 → d.hasDoc = false := by
  intro decls
  induction decls with
  | nil => intro gc acc d h; simp [driverLoop] at h
  | cons d0 rest ih =>
    intro gc acc d h
    by_cases hd : d0.hasDoc = true
    · rw [driverLoop_skip_doc oracle intr rest gc acc hd] at h
      exact ih gc acc d h
    · have hd' : d0.hasDoc = false := by
        cases hx : d0.hasDoc
        · rfl
        · exact absurd hx hd
      by_cases hbig : 2048 < count_tokens d0.source
      · rw [driverLoop_skip_big oracle intr rest gc acc hd' hbig] at h
        exact ih gc acc d h
      · by_cases hintr : intr = some gc
        · simp [driverLoop, hd', hbig, hintr] at h
        · rw [driverLoop_gen oracle intr rest gc acc hd' (by omega) hintr] at h
          simp only [List.mem_cons] at h
          rcases h with h | h
          · subst h; exact hd'
          · exact ih _ _ d h

theorem driverLoop_requests_small (oracle : List Char → List Char) (intr : Option Nat) :
    ∀ (decls : List Decl) (gc : Nat) (acc : List (List Char × List Char)) (d : Decl),
    d ∈ (driverLoop oracle intr decls gc acc).1 → count_tokens d.source ≤ 2048 := by
  intro decls
  induction decls with
  | nil => intro gc acc d h; simp [driverLoop] at h
  | cons d0 rest ih =>
    intro gc acc d h
    by_cases hd : d0.hasDoc = true
    · rw [driverLoop_skip_doc oracle intr rest gc acc hd] at h
      exact ih gc acc d h
    · have hd' : d0.hasDoc = false := by
        cases hx : d0.hasDoc
        · rfl
        · exact absurd hx hd
      by_cases hbig : 2048 < count_tokens d0.source
      · rw [driverLoop_skip_big oracle intr rest gc acc hd' hbig] at h
        exact ih gc acc d h
      · by_cases hintr : intr = some gc
        · simp [driverLoop, hd', hbig, hintr] at h
        · rw [driverLoop_gen oracle intr rest gc acc hd' (by omega) hintr] at h
          simp only [List.mem_cons] at h
          rcases h with h | h
          · subst h; omega
          · exact ih _ _ d h

theorem dictInsert_mem {k v : List Char} :
    ∀ {acc : List (List Char × List Char)} {pr : List Char × List Char},
    pr ∈ dictInsert k v acc → pr = (k, v) ∨ pr ∈ acc := by
  intro acc
  induction acc with
  | nil => intro pr h; simp [dictInsert] at h; exact Or.inl h
  | cons p0 rest ih =>
    intro pr h
    by_cases hk : p0.1 = k
    · simp only [dictInsert] at h
      rw [if_pos (by cases p0; exact hk)] at h
      simp only [List.mem_cons] at h
      rcases h with h | h
      · exact Or.inl h
      · exact Or.inr (List.mem_cons_of_mem _ h)
    · simp only [dictInsert] at h
      rw [if_neg (by cases p0; exact hk)] at h
      simp only [List.mem_cons] at h
      rcases h with h | h
      · cases p0; exact Or.inr (by simp [h])
      · rcases ih h with h2 | h2
        · exact Or.inl h2
        · exact Or.inr (List.mem_cons_of_mem _ h2)

theorem driverLoop_accum_small (oracle : List Char → List Char) (intr : Option Nat) :
    ∀ (decls : List Decl) (gc : Nat) (acc : List (List Char × List Char)),
    (∀ pr ∈ acc, count_tokens pr.1 ≤ 2048) →
    ∀ pr ∈ (driverLoop oracle intr decls gc acc).2.1, count_tokens pr.1 ≤ 2048 := by
  intro decls
  induction decls with
  | nil => intro gc acc hacc pr h; simp [driverLoop] at h; exact hacc pr h
  | cons d0 rest ih =>
    intro gc acc hacc pr h
    by_cases hd : d0.hasDoc = true
    · rw [driverLoop_skip_doc oracle intr rest gc acc hd] at h
      exact ih gc acc hacc pr h
    · have hd' : d0.hasDoc = false := by
        cases hx : d0.hasDoc
        · rfl
        · exact absurd hx hd
      by_cases hbig : 2048 < count_tokens d0.source
      · rw [driverLoop_skip_big oracle intr rest gc acc hd' hbig] at h
        exact ih gc acc hacc pr h
      · by_cases hintr : intr = some gc
        · simp only [driverLoop, hd', if_false, Bool.false_eq_true] at h
          rw [if_neg hbig, if_pos hintr] at h
          exact hacc pr h
        · rw [driverLoop_gen oracle intr rest gc acc hd' (by omega) hintr] at h
          refine ih _ _ ?_ pr h
          intro q hq
          rcases dictInsert_mem hq with h2 | h2
          · subst h2; simpa using by omega
          · exact hacc q h2

theorem driverLoop_no_intr_no_abort (oracle : List Char → List Char) :
    ∀ (decls : List Decl) (gc : Nat) (acc : List (List Char × List Char)),
    (driverLoop oracle none decls gc acc).2.2 = false := by
  intro decls
  induction decls with
  | nil => intro gc acc; rfl
  | cons d0 rest ih =>
    intro gc acc
    by_cases hd : d0.hasDoc = true
    · rw [driverLoop_skip_doc oracle none rest gc acc hd]; exact ih gc acc
    · have hd' : d0.hasDoc = false := by
        cases hx : d0.hasDoc
        · rfl
        · exact absurd hx hd
      by_cases hbig : 2048 < count_tokens d0.source
      · rw [driverLoop_skip_big oracle none rest gc acc hd' hbig]; exact ih gc acc
      · rw [driverLoop_gen oracle none rest gc acc hd' (by omega) (by simp)]
        exact ih _ _

theorem driverLoop_all_skip (oracle : List Char → List Char) (intr : Option Nat) :
    ∀ (decls : List Decl) (gc : Nat) (acc : List (List Char × List Char)),
    (∀ d ∈ decls, d.hasDoc = true ∨ 2048 < count_tokens d.source) →
    driverLoop oracle intr decls gc acc = ([], acc, false) := by
  intro decls
  induction decls with
  | nil => intro gc acc _; rfl
  | cons d0 rest ih =>
    intro gc acc hall
    rcases hall d0 (by simp) with hd | hbig
    · rw [driverLoop_skip_doc oracle intr rest gc acc hd]
      exact ih gc acc (fun d hd2 => hall d (List.mem_cons_of_mem _ hd2))
    · have hd' : d0.hasDoc = false ∨ d0.hasDoc = true := by
        cases d0.hasDoc
        · exact Or.inl rfl
        · exact Or.inr rfl
      rcases hd' with hd0 | hd0
      · rw [driverLoop_skip_big oracle intr rest gc acc hd0 hbig]
        exact ih gc acc (fun d hd2 => hall d (List.mem_cons_of_mem _ hd2))
      · rw [driverLoop_skip_doc oracle intr rest gc acc hd0]
        exact ih gc acc (fun d hd2 => hall d (List.mem_cons_of_mem _ hd2))

theorem driverLoop_intr_aborts (oracle : List Char → List Char) (k : Nat) :
    ∀ (decls : List Decl) (gc : Nat) (acc : List (List Char × List Char)),
    gc ≤ k → k - gc < eligibleCount decls →
    (driverLoop oracle (some k) decls gc acc).2.2 = true := by
  intro decls
  induction decls with
  | nil => intro gc acc _ h; simp [eligibleCount] at h
  | cons d0 rest ih =>
    intro gc acc hle h
    by_cases hd : d0.hasDoc = true
    · rw [driverLoop_skip_doc oracle (some k) rest gc acc hd]
      refine ih gc acc hle ?_
      have : eligibleCount (d0 :: rest) = eligibleCount rest := by
        simp [eligibleCount, List.filter, hd]
      omega
    · have hd' : d0.hasDoc = false := by
        cases hx : d0.hasDoc
        · rfl
        · exact absurd hx hd
      by_cases hbig : 2048 < count_tokens d0.source
      · rw [driverLoop_skip_big oracle (some k) rest gc acc hd' hbig]
        refine ih gc acc hle ?_
        have : eligibleCount (d0 :: rest) = eligibleCount rest := by
          have : (count_tokens d0.source ≤ 2048) = False := by simp; omega
          simp [eligibleCount, List.filter, hd', this]
        omega
      · by_cases hk : k = gc
        · subst hk
          simp [driverLoop, hd', hbig]
        · rw [driverLoop_gen oracle (some k) rest gc acc hd' (by omega)
            (by simpa using hk)]
          refine ih (gc + 1) _ (by omega) ?_
          have : eligibleCount (d0 :: rest) = eligibleCount rest + 1 := by
            have hsm : (count_tokens d0.source ≤ 2048) := by omega
            simp [eligibleCount, List.filter, hd', hsm]
          omega

theorem runMain_requests (java : List Char) (decls : List Decl)
    (oracle : List Char → List Char) (intr : Option Nat) :
    (runMain java decls oracle intr).requests = (driverLoop oracle intr decls 0 []).1 := by
  simp only [runMain]
  split <;> rfl

theorem runMain_accum (java : List Char) (decls : List Decl)
    (oracle : List Char → List Char) (intr : Option Nat) :
    (runMain java decls oracle intr).accum = (driverLoop oracle intr decls 0 []).2.1 := by
  simp only [runMain]
  split <;> rfl

theorem runMain_written_normal (java : List Char) (decls : List Decl)
    (oracle : List Char → List Char) (intr : Option Nat)
    (h : (driverLoop oracle intr decls 0 []).2.2 = false) :
    (runMain java decls oracle intr).written
      = some ((driverLoop oracle intr decls 0 []).2.1.foldl
          (fun buf pr => pyReplaceAll pr.1 pr.2 buf) java) := by
  simp only [runMain]
  rw [if_neg (by rw [h]; simp)]

/-! ## Claim C3: the stream reassembler -/

/-- C3: for every finite sequence of response fragments, the reassembler
processes each fragment by removing the first occurrence of the marker
`"data: "` and then replacing every occurrence of `"[h_newline]"` by a
newline, and concatenates the processed fragments in arrival order with
no separator; in particular
`["data: line1[h_newline]line2", "data: tail"]` yields
`"line1\nline2tail"` and the empty sequence yields the empty string. -/
theorem C3_stream_reassembler :
    (∀ fragments : List (List Char),
      reassemble fragments
        = joinParts (fragments.map
            (fun line => pyReplaceAll hNewlineTok ['\n'] (pyReplaceFirst line dataMarker [])))) ∧
    reassemble [("data: line1[h_newline]line2").toList, ("data: tail").toList]
      = ("line1\nline2tail").toList ∧
    reassemble ([] : List (List Char)) = [] := by
  refine ⟨?_, by decide, rfl⟩
  intro fragments
  induction fragments with
  | nil => rfl
  | cons l rest ih => simp [reassemble, joinParts, processLine, ih]

/-! ## Claim C5: doc-comment extractor on the documented example -/

/-- C5: on the input `"blah blah\n  /** Does X.\n   * more.\n   */\ntrailing junk"`
the extractor returns exactly `"  /** Does X.\n   * more.\n   */"`; the
last `/**` is at byte 12, the captured start (after backing up over the
horizontal whitespace) is byte 10, and the first `*/` at or after that
start ends the capture. -/
theorem C5_extractor_example :
    extract_doc_comment ("blah blah\n  /** Does X.\n   * more.\n   */\ntrailing junk").toList
      = ("  /** Does X.\n   * more.\n   */").toList ∧
    rfindSub ("blah blah\n  /** Does X.\n   * more.\n   */\ntrailing junk").toList docOpen
      = some 12 ∧
    hwsSearchStart (("blah blah\n  /** Does X.\n   * more.\n   */\ntrailing junk").toList.take 12)
      = 10 := by
  refine ⟨by decide, by decide, by decide⟩

/-! ## Claim C9: user cancellation -/

/-- C9: when a cancellation signal arrives during the k-th generation
call of the per-declaration loop (which happens exactly when `k` is
below the number of generation-eligible declarations), the run sends the
best-effort stop request, exits with status 1, and writes no output
file. -/
theorem C9_cancellation_aborts (java : List Char) (decls : List Decl)
    (oracle : List Char → List Char) (k : Nat)
    (h : k < eligibleCount decls) :
    (runMain java decls oracle (some k)).stopRequested = true ∧
    (runMain java decls oracle (some k)).exitCode = some 1 ∧
    (runMain java decls oracle (some k)).written = none := by
  have hab : (driverLoop oracle (some k) decls 0 []).2.2 = true :=
    driverLoop_intr_aborts oracle k decls 0 [] (Nat.zero_le k) (by omega)
  refine ⟨?_, ?_, ?_⟩ <;> simp [runMain, hab]

/-- Witness for C9 at a concrete run with one eligible declaration,
interrupted at its generation call. -/
theorem C9_cancellation_aborts_witness :
    0 < eligibleCount [⟨0, 2, ("m;").toList, false⟩] ∧
    ((runMain ("m;").toList [⟨0, 2, ("m;").toList, false⟩]
        (fun _ => []) (some 0)).stopRequested = true ∧
      (runMain ("m;").toList [⟨0, 2, ("m;").toList, false⟩]
        (fun _ => []) (some 0)).exitCode = some 1 ∧
      (runMain ("m;").toList [⟨0, 2, ("m;").toList, false⟩]
        (fun _ => []) (some 0)).written = none) :=
  ⟨by decide, C9_cancellation_aborts ("m;").toList [⟨0, 2, ("m;").toList, false⟩]
    (fun _ => []) 0 (by decide)⟩

/-! ## Claim C10: all-skipped runs write the input unchanged -/

/-- C10: when every located declaration is skipped (already documented
or oversized), no merge result is accumulated and the text written to
the output file is byte-for-byte the input text. -/
theorem C10_all_skipped_identity (java : List Char) (decls : List Decl)
    (oracle : List Char → List Char) (intr : Option Nat)
    (h : ∀ d ∈ decls, d.hasDoc = true ∨ 2048 < count_tokens d.source) :
    (runMain java decls oracle intr).accum = [] ∧
    (runMain java decls oracle intr).written = some java := by
  have hloop := driverLoop_all_skip oracle intr decls 0 [] h
  constructor
  · rw [runMain_accum, hloop]
  · rw [runMain_written_normal java decls oracle intr (by rw [hloop])]
    rw [hloop]
    rfl

/-- Witness for C10 at a concrete run: one documented declaration,
output equals the input text. -/
theorem C10_all_skipped_identity_witness :
    (∀ d ∈ [(⟨0, 2, ("m;").toList, true⟩ : Decl)],
      d.hasDoc = true ∨ 2048 < count_tokens d.source) ∧
    ((runMain ("m;").toList [⟨0, 2, ("m;").toList, true⟩]
        (fun _ => []) none).accum = [] ∧
      (runMain ("m;").toList [⟨0, 2, ("m;").toList, true⟩]
        (fun _ => []) none).written = some (("m;").toList)) :=
  ⟨by decide, C10_all_skipped_identity ("m;").toList [⟨0, 2, ("m;").toList, true⟩]
    (fun _ => []) none (by decide)⟩

/-! ## Claim C2: already-documented declarations -/

/-- C2 (amended): the driver never issues a generation request for a
declaration record with `has_doc = true` (it is skipped before the
generation call).  The original claim's second half — that the final
output is byte-identical to the original source at that declaration's
span — does not hold in general, see the counterexample. -/
theorem C2_documented_never_requested (java : List Char) (decls : List Decl)
    (oracle : List Char → List Char) (intr : Option Nat) (d : Decl)
    (h : d.hasDoc = true) :
    d ∉ (runMain java decls oracle intr).requests := by
  intro hmem
  rw [runMain_requests] at hmem
  have := driverLoop_requests_hasDoc oracle intr decls 0 [] d hmem
  rw [h] at this
  simp at this

/-- Counterexample to C2 as stated: in this run the class record has
`has_doc = true` and its source text stands at byte 9 of the input, yet
after the run documents the method nested inside the class, the class's
original source text occurs nowhere in the written output — the output
is not byte-identical to the original source at the class's span. -/
theorem C2_counterexample :
    (⟨9, 34, c2Class, true⟩ : Decl) ∈ c2Decls ∧
    (⟨9, 34, c2Class, true⟩ : Decl).hasDoc = true ∧
    findSub c2File c2Class = some 9 ∧
    (runMain c2File c2Decls c2Oracle none).written
      = some (("/** C */\nclass A\n  /** M doc */\nvoid m();\nend A").toList) ∧
    findSub (("/** C */\nclass A\n  /** M doc */\nvoid m();\nend A").toList) c2Class
      = none := by
  refine ⟨by decide, rfl, by decide, by decide, by decide⟩

/-- Witness for C2's amended theorem at the concrete counterexample run. -/
theorem C2_documented_never_requested_witness :
    (⟨9, 34, c2Class, true⟩ : Decl).hasDoc = true ∧
    (⟨9, 34, c2Class, true⟩ : Decl) ∉ (runMain c2File c2Decls c2Oracle none).requests :=
  ⟨rfl, C2_documented_never_requested c2File c2Decls c2Oracle none _ rfl⟩

/-! ## Claim C1: merge application under duplicate declaration text -/

/-- C1 (amended): applying the accumulated merges to the file buffer
(line 229, `str.replace`) replaces EVERY occurrence of the
original text, not only the first: when the accumulated dictionary
holds the single pair `(pat, rep)` and the buffer decomposes as
`x ++ pat ++ y ++ pat ++ z` with the stated first-occurrence facts, both
occurrences receive the merged text. -/
theorem C1_merge_replaces_every_occurrence
    (java x y z pat rep : List Char) (decls : List Decl)
    (oracle : List Char → List Char)
    (hacc : (runMain java decls oracle none).accum = [(pat, rep)])
    (hjava : java = x ++ pat ++ (y ++ pat ++ z))
    (h1 : findSub java pat = some x.length)
    (h2 : findSub (y ++ pat ++ z) pat = some y.length)
    (h3 : findSub z pat = none) :
    (runMain java decls oracle none).written = some (x ++ rep ++ (y ++ rep ++ z)) := by
  rw [runMain_accum] at hacc
  rw [runMain_written_normal java decls oracle none
    (driverLoop_no_intr_no_abort oracle decls 0 [])]
  rw [hacc]
  subst hjava
  simp only [List.foldl]
  exact congrArg some (pyReplaceAll_two h1 h2 h3)

/-- Counterexample to C1 as stated: in this run with two byte-identical
accepted declarations, the written buffer has BOTH occurrences of the
original text replaced, and differs from the buffer obtained by
replacing only the first occurrence (which is what the dead code
`write_code_snippet_to_file` would produce, the behaviour the claim
describes). -/
theorem C1_counterexample :
    (runMain c1File c1Decls c1Oracle none).written
      = some (("/** M doc */\nvoid m();\nq;\n/** M doc */\nvoid m();").toList) ∧
    write_code_snippet c1File (("void m();").toList) c1Merged
      = ("/** M doc */\nvoid m();\nq;\nvoid m();").toList ∧
    (("/** M doc */\nvoid m();\nq;\n/** M doc */\nvoid m();").toList : List Char)
      ≠ ("/** M doc */\nvoid m();\nq;\nvoid m();").toList := by
  refine ⟨by decide, by decide, by decide⟩

/-- Witness for C1's amended theorem at the concrete duplicate-text run. -/
theorem C1_merge_replaces_every_occurrence_witness :
    (runMain c1File c1Decls c1Oracle none).accum
      = [(("void m();").toList, c1Merged)] ∧
    (runMain c1File c1Decls c1Oracle none).written
      = some (([] : List Char) ++ c1Merged ++ (("\nq;\n").toList ++ c1Merged ++ [])) :=
  ⟨by decide, C1_merge_replaces_every_occurrence c1File [] (("\nq;\n").toList) []
    (("void m();").toList) c1Merged c1Decls c1Oracle (by decide) (by decide)
    (by decide) (by decide) (by decide)⟩

/-! ## Claim C8: oversized declarations -/

/-- C8 (amended): for a declaration whose approximate token count
exceeds 2048 the pipeline issues no generation request and records no
merge result whose original text is that declaration's source.  The
original claim's third part — that its text is left unchanged in the
output — fails when an accepted declaration's text lies inside the
oversized declaration's span, see the counterexample. -/
theorem C8_oversized_skipped (java : List Char) (decls : List Decl)
    (oracle : List Char → List Char) (intr : Option Nat) (d : Decl)
    (h : 2048 < count_tokens d.source) :
    d ∉ (runMain java decls oracle intr).requests ∧
    ∀ pr ∈ (runMain java decls oracle intr).accum, pr.1 ≠ d.source := by
  constructor
  · intro hmem
    rw [runMain_requests] at hmem
    have := driverLoop_requests_small oracle intr decls 0 [] d hmem
    omega
  · intro pr hpr he
    rw [runMain_accum] at hpr
    have := driverLoop_accum_small oracle intr decls 0 [] (by simp) pr hpr
    rw [he] at this
    omega

theorem ctGo_replicate_semi (t : List Char) :
    ∀ n : Nat, ctGo false (List.replicate n ';' ++ t) = n + ctGo false t := by
  intro n
  induction n with
  | zero => simp
  | succ m ih =>
    rw [List.replicate_succ, List.cons_append]
    show ctGo false (';' :: (List.replicate m ';' ++ t)) = (m + 1) + ctGo false t
    simp only [ctGo]
    rw [if_neg (by decide), if_neg (by decide), if_neg (by decide)]
    rw [ih]
    omega

theorem count_tokens_c8Big : count_tokens c8Big = 2054 := by
  show ctGo false (List.replicate 2049 ';' ++ c8Tail) = 2054
  rw [ctGo_replicate_semi]
  have h : ctGo false c8Tail = 5 := by decide
  omega

theorem c8_big_oversized : 2048 < count_tokens c8BigDecl.source := by
  show 2048 < count_tokens c8Big
  rw [count_tokens_c8Big]
  omega

theorem pyReplaceAll_replicate_semi (pat rep t : List Char)
    (h : ∀ s : List Char, isPrefixL pat (';' :: s) = false) :
    ∀ n : Nat, pyReplaceAll pat rep (List.replicate n ';' ++ t)
      = List.replicate n ';' ++ pyReplaceAll pat rep t := by
  intro n
  induction n with
  | zero => simp
  | succ m ih =>
    rw [List.replicate_succ, List.cons_append, pyReplaceAll_cons_skip rep (h _), ih]
    simp

theorem c8_loop :
    driverLoop c8Oracle none c8Decls 0 []
      = ([c8SmallDecl], [(("void m();").toList, c8Merged)], false) := by
  have h1 : c8BigDecl.hasDoc = false := rfl
  rw [show c8Decls = c8BigDecl :: [c8SmallDecl] from rfl]
  rw [driverLoop_skip_big c8Oracle none [c8SmallDecl] 0 [] h1 c8_big_oversized]
  decide

theorem c8_written :
    (runMain c8Big c8Decls c8Oracle none).written = some c8Out := by
  rw [runMain_written_normal c8Big c8Decls c8Oracle none (by rw [c8_loop])]
  rw [c8_loop]
  simp only [List.foldl]
  unfold c8Big
  rw [pyReplaceAll_replicate_semi (("void m();").toList) c8Merged c8Tail (fun s => rfl)]
  have h : pyReplaceAll (("void m();").toList) c8Merged c8Tail
      = ("\n/** M doc */\nvoid m();").toList := by decide
  rw [h]
  rfl

/-- Counterexample to C8 as stated: the oversized declaration (2054
approximate tokens, spanning the whole input file) receives no
generation request, but its text is NOT left unchanged in the output:
the run documents the small declaration nested inside its span, so the
written text differs from the oversized declaration's source text. -/
theorem C8_counterexample :
    2048 < count_tokens c8BigDecl.source ∧
    c8BigDecl ∈ c8Decls ∧
    c8BigDecl.hasDoc = false ∧
    (runMain c8Big c8Decls c8Oracle none).written = some c8Out ∧
    c8Out ≠ c8Big := by
  refine ⟨c8_big_oversized, List.mem_cons_self _ _, rfl, c8_written, ?_⟩
  intro h
  have hlen := congrArg List.length h
  simp only [c8Out, c8Big, List.length_append, List.length_replicate] at hlen
  have h1 : (("\n/** M doc */\nvoid m();").toList).length = 23 := by decide
  have h2 : c8Tail.length = 10 := by decide
  rw [h1, h2] at hlen
  omega

/-- Witness for C8's amended theorem at the concrete oversized run. -/
theorem C8_oversized_skipped_witness :
    2048 < count_tokens c8BigDecl.source ∧
    (c8BigDecl ∉ (runMain c8Big c8Decls c8Oracle none).requests ∧
      ∀ pr ∈ (runMain c8Big c8Decls c8Oracle none).accum, pr.1 ≠ c8BigDecl.source) :=
  ⟨c8_big_oversized,
    C8_oversized_skipped c8Big c8Decls c8Oracle none c8BigDecl c8_big_oversized⟩

/-! ## Claim C7: the span locator's has_doc lookback -/

theorem matchesDocLine_not_blank :
    ∀ {l : List Char}, matchesDocLine l = true → isBlankLine l = false := by
  intro l
  induction l with
  | nil => intro h; simp [matchesDocLine] at h
  | cons c rest ih =>
    intro h
    simp only [matchesDocLine, Bool.or_eq_true, Bool.and_eq_true] at h
    rcases h with ⟨hpre, _⟩ | hrest
    · have hc : c = '/' := by
        cases rest with
        | nil => simp [docOpen, isPrefixL] at hpre
        | cons b r =>
          simp only [docOpen, isPrefixL, Bool.and_eq_true, beq_iff_eq] at hpre
          exact hpre.1.symm
      subst hc
      simp [isBlankLine, isPySpace]
    · have := ih hrest
      simp [isBlankLine] at this ⊢
      intro _
      exact this

theorem bool_eq_false {b : Bool} (h : ¬ b = true) : b = false := by
  cases b
  · rfl
  · exact absurd rfl h

theorem lookback_eq_any (lines : List (List Char)) :
    ∀ idxs : List Nat,
    lookback lines idxs
      = (takeUntilIncl (fun l => !(isBlankLine l) && !(isContinuation l))
          (idxs.map (fun i => lines.getD i []))).any matchesDocLine := by
  intro idxs
  induction idxs with
  | nil => rfl
  | cons i is ih =>
    simp only [List.map_cons, takeUntilIncl, lookback]
    generalize lines.getD i [] = li
    by_cases hm : matchesDocLine li = true
    · have hb : isBlankLine li = false := matchesDocLine_not_blank hm
      by_cases hco : isContinuation li = true
      · simp [hm, hb, hco, List.any_cons]
      · simp [hm, hb, bool_eq_false hco, List.any_cons]
    · have hm' : matchesDocLine li = false := bool_eq_false hm
      by_cases hbl : isBlankLine li = true
      · simp [hm', hbl, List.any_cons, ih]
      · by_cases hco : isContinuation li = true
        · simp [hm', bool_eq_false hbl, hco, List.any_cons, ih]
        · simp [hm', bool_eq_false hbl, bool_eq_false hco, List.any_cons]

/-- C7: the span locator's `has_doc` comes from looking backward through
at most 5 preceding source lines, stopping early at the first line that
is neither blank nor a comment-continuation, and is true exactly when
one of the examined lines (the stopping line included) matches a
complete one-line `/** ... */` block; the window has at most 5 indices,
all below the declaration's start line. -/
theorem C7_span_locator_lookback (lines : List (List Char)) (startLine : Nat) :
    hasDocLookback lines startLine = specHasDoc lines startLine ∧
    (lookbackRange startLine).length ≤ 5 ∧
    ∀ i ∈ lookbackRange startLine, i < startLine := by
  refine ⟨lookback_eq_any lines _, ?_, ?_⟩
  · simp only [lookbackRange, List.length_map, List.length_range]
    omega
  · intro i hi
    simp only [lookbackRange, List.mem_map, List.mem_range] at hi
    rcases hi with ⟨j, hj, he⟩
    omega

/-! ## Claim C6: extractor fallback when a marker is missing -/

theorem head_drop_eq_get : ∀ (l : List Char) (n : Nat), (l.drop n).head? = l.get? n := by
  intro l
  induction l with
  | nil => intro n; cases n <;> rfl
  | cons c rest ih =>
    intro n
    cases n with
    | zero => rfl
    | succ m => exact ih m

theorem get_take_eq_get : ∀ (l : List Char) (n i : Nat), i < n → (l.take n).get? i = l.get? i := by
  intro l
  induction l with
  | nil => intro n i _; simp
  | cons c rest ih =>
    intro n i h
    cases n with
    | zero => omega
    | succ m =>
      cases i with
      | zero => rfl
      | succ j => simpa using ih m j (by omega)

theorem getLast_eq_get : ∀ l : List Char, l.getLast? = l.get? (l.length - 1) := by
  intro l
  induction l with
  | nil => rfl
  | cons c rest ih =>
    cases rest with
    | nil => rfl
    | cons b r =>
      rw [List.getLast?_cons_cons, ih]
      have h1 : (c :: b :: r).length - 1 = ((b :: r).length - 1) + 1 := by
        simp [List.length_cons]
      rw [h1, List.get?_cons_succ]

theorem trailingHwsLen_le : ∀ l : List Char, trailingHwsLen l ≤ l.length := by
  intro l
  induction l with
  | nil => simp [trailingHwsLen]
  | cons c rest ih =>
    simp only [trailingHwsLen, List.length_cons]
    by_cases h : (trailingHwsLen rest = rest.length && isHws c) = true
    · rw [if_pos h]
      simp only [Bool.and_eq_true, decide_eq_true_eq] at h
      omega
    · rw [if_neg h]
      omega

theorem trailingHwsLen_sound : ∀ (l : List Char) (p : Nat) (a : Char),
    l.length - trailingHwsLen l ≤ p → l.get? p = some a → isHws a = true := by
  intro l
  induction l with
  | nil => intro p a _ h; simp at h
  | cons c rest ih =>
    intro p a hge hget
    by_cases hc : (trailingHwsLen rest = rest.length && isHws c) = true
    · have hparts : trailingHwsLen rest = rest.length ∧ isHws c = true := by
        simpa [Bool.and_eq_true, decide_eq_true_eq] using hc
      cases p with
      | zero =>
        have hac : a = c := by simpa using hget.symm
        subst hac
        exact hparts.2
      | succ m =>
        have hget2 : rest.get? m = some a := by simpa using hget
        refine ih m a ?_ hget2
        rw [hparts.1]
        omega
    · have hlen : trailingHwsLen (c :: rest) = trailingHwsLen rest := by
        simp only [trailingHwsLen]
        rw [if_neg hc]
      rw [hlen] at hge
      have hbound := trailingHwsLen_le rest
      cases p with
      | zero =>
        simp only [List.length_cons] at hge
        omega
      | succ m =>
        have hget2 : rest.get? m = some a := by simpa using hget
        refine ih m a ?_ hget2
        simp only [List.length_cons] at hge
        omega

theorem hwsSearchStart_eq_pos (t : List Char) (h : t.getLast? = some '\n') :
    hwsSearchStart t = (t.length - 1) - trailingHwsLen (t.take (t.length - 1)) := by
  unfold hwsSearchStart
  rw [if_pos h]

theorem hwsSearchStart_eq_neg (t : List Char) (h : ¬ t.getLast? = some '\n') :
    hwsSearchStart t = t.length - trailingHwsLen (t.take t.length) := by
  unfold hwsSearchStart
  rw [if_neg h]

theorem hwsSearchStart_le (t : List Char) : hwsSearchStart t ≤ t.length := by
  by_cases h : t.getLast? = some '\n'
  · have he := hwsSearchStart_eq_pos t h
    omega
  · have he := hwsSearchStart_eq_neg t h
    omega

theorem hwsSearchStart_sound (t : List Char) (p : Nat) (a : Char)
    (h1 : hwsSearchStart t ≤ p) (h2 : p < t.length) (h3 : t.get? p = some a) :
    isHws a = true ∨ a = '\n' := by
  by_cases hlast : t.getLast? = some '\n'
  · have he := hwsSearchStart_eq_pos t hlast
    by_cases hp : p < t.length - 1
    · left
      have hget2 : (t.take (t.length - 1)).get? p = some a := by
        rw [get_take_eq_get t (t.length - 1) p hp]
        exact h3
      refine trailingHwsLen_sound (t.take (t.length - 1)) p a ?_ hget2
      have hul : (t.take (t.length - 1)).length = t.length - 1 := by
        rw [List.length_take]
        omega
      rw [hul]
      rw [he] at h1
      omega
    · right
      have hpe : p = t.length - 1 := by omega
      subst hpe
      rw [← getLast_eq_get t, hlast] at h3
      injection h3 with h
      exact h.symm
  · left
    have he := hwsSearchStart_eq_neg t hlast
    have hget2 : (t.take t.length).get? p = some a := by
      rw [get_take_eq_get t t.length p h2]
      exact h3
    refine trailingHwsLen_sound (t.take t.length) p a ?_ hget2
    have hul : (t.take t.length).length = t.length := by simp
    rw [hul]
    rw [he] at h1
    omega

theorem isPrefixL_docClose_head : ∀ u : List Char,
    isPrefixL docClose u = true → u.head? = some '*' := by
  intro u hu
  cases u with
  | nil => simp [docClose, isPrefixL] at hu
  | cons b r =>
    simp only [docClose, isPrefixL, Bool.and_eq_true, beq_iff_eq] at hu
    simp [← hu.1]

/-- C6: if the opening marker `/**` is missing from the input, or the
closing marker `*/` does not occur at or after the position of the last
`/**`, then `extract_doc_comment` returns the entire input unchanged
(and, being a total function of the input text, it never raises). -/
theorem C6_extractor_fallback (text : List Char)
    (h : ∀ s, rfindSub text docOpen = some s → findFromNat text s docClose = none) :
    extract_doc_comment text = text := by
  cases hr : rfindSub text docOpen with
  | none =>
    unfold extract_doc_comment
    rw [hr]
  | some s =>
    have hnone := h s hr
    have hs3 : s + 3 ≤ text.length := by
      have hb := rfindSub_add_le hr
      simpa [docOpen] using hb
    have htlen : (text.take s).length = s := by
      simp [List.length_take]
      omega
    have hstart_le : hwsSearchStart (text.take s) ≤ s := by
      have hb := hwsSearchStart_le (text.take s)
      omega
    have hchars : ∀ p a, hwsSearchStart (text.take s) ≤ p → p < s →
        text.get? p = some a → a ≠ '*' := by
      intro p a hp1 hp2 hget hstar
      have hget2 : (text.take s).get? p = some a := by
        rw [get_take_eq_get text s p hp2]
        exact hget
      rcases hwsSearchStart_sound (text.take s) p a hp1 (by omega) hget2 with hh | hh
      · rw [hstar] at hh
        exact absurd hh (by decide)
      · rw [hstar] at hh
        exact absurd hh (by decide)
    have hfind : findFromNat text (hwsSearchStart (text.take s)) docClose = none := by
      unfold findFromNat
      simp only [Option.map_eq_none']
      rw [findSub_none_iff]
      intro j
      rw [List.drop_drop]
      by_cases hcase : hwsSearchStart (text.take s) + j < s
      · cases hpre : isPrefixL docClose (text.drop (hwsSearchStart (text.take s) + j)) with
        | false => rfl
        | true =>
          have hh := isPrefixL_docClose_head _ hpre
          rw [head_drop_eq_get] at hh
          exact absurd rfl (hchars _ '*' (by omega) hcase hh)
      · have hnone2 : findSub (text.drop s) docClose = none := by
          unfold findFromNat at hnone
          simpa using hnone
        have hall := (findSub_none_iff docClose (text.drop s)).mp hnone2
        have hone := hall (hwsSearchStart (text.take s) + j - s)
        rw [List.drop_drop] at hone
        have heq : s + (hwsSearchStart (text.take s) + j - s)
            = hwsSearchStart (text.take s) + j := by omega
        rw [heq] at hone
        exact hone
    unfold extract_doc_comment
    rw [hr]
    show (match findFromNat text (hwsSearchStart (text.take s)) docClose with
      | none => text
      | some e => (text.drop (hwsSearchStart (text.take s))).take
          (e + 2 - hwsSearchStart (text.take s))) = text
    rw [hfind]

/-- Witness for C6 at a concrete input whose last `/**` is followed by
no `*/`. -/
theorem C6_extractor_fallback_witness :
    (∀ s, rfindSub (("a /** b").toList) docOpen = some s →
      findFromNat (("a /** b").toList) s docClose = none) ∧
    extract_doc_comment (("a /** b").toList) = ("a /** b").toList := by
  have hh : ∀ s, rfindSub (("a /** b").toList) docOpen = some s →
      findFromNat (("a /** b").toList) s docClose = none := by
    intro s hs
    have h2 : s = 2 := by
      rw [show rfindSub (("a /** b").toList) docOpen = some 2 from by decide] at hs
      injection hs with h
      omega
    rw [h2]
    decide
  exact ⟨hh, C6_extractor_fallback _ hh⟩

/-! ## Claim C4: the splice engine -/

theorem splitFirstLine_nl (rest : List Char) :
    splitFirstLine ('\n' :: rest) = ([], some rest) := rfl

theorem splitFirstLine_crnl (rest2 : List Char) :
    splitFirstLine ('\r' :: '\n' :: rest2) = ([], some rest2) := rfl

theorem splitFirstLine_cr_nil : splitFirstLine ['\r'] = ([], some []) := rfl

theorem splitFirstLine_cr_cons {c2 : Char} (rest2 : List Char) (h : ¬ c2 = '\n') :
    splitFirstLine ('\r' :: c2 :: rest2) = ([], some (c2 :: rest2)) := by
  simp only [splitFirstLine, if_true]
  split
  · rfl
  · split
    · next rest3 heq =>
      injection heq with hh1 hh2
      exact absurd hh1 h
    · rfl

theorem splitFirstLine_other {c : Char} (rest : List Char)
    (h1 : ¬ c = '\n') (h2 : ¬ c = '\r') :
    splitFirstLine (c :: rest) = (c :: (splitFirstLine rest).1, (splitFirstLine rest).2) := by
  simp only [splitFirstLine]
  rw [if_neg h1, if_neg h2]

theorem splitFirstLine_some_lt : ∀ (s rest : List Char),
    (splitFirstLine s).2 = some rest → rest.length < s.length := by
  intro s
  induction s with
  | nil => intro rest h; simp [splitFirstLine] at h
  | cons c cs ih =>
    intro rest h
    by_cases hn : c = '\n'
    · subst hn
      rw [splitFirstLine_nl] at h
      injection h with h2
      subst h2
      simp
    · by_cases hr : c = '\r'
      · subst hr
        cases cs with
        | nil =>
          rw [splitFirstLine_cr_nil] at h
          injection h with h2
          subst h2
          simp
        | cons c2 cs2 =>
          by_cases hn2 : c2 = '\n'
          · subst hn2
            rw [splitFirstLine_crnl] at h
            injection h with h2
            subst h2
            simp [List.length_cons]
            omega
          · rw [splitFirstLine_cr_cons cs2 hn2] at h
            injection h with h2
            subst h2
            simp
      · rw [splitFirstLine_other cs hn hr] at h
        have := ih rest h
        simp only [List.length_cons]
        omega

theorem splitFirstLine_none_eq : ∀ s : List Char,
    (splitFirstLine s).2 = none → s = (splitFirstLine s).1 := by
  intro s
  induction s with
  | nil => intro _; rfl
  | cons c cs ih =>
    intro h
    by_cases hn : c = '\n'
    · subst hn
      rw [splitFirstLine_nl] at h
      simp at h
    · by_cases hr : c = '\r'
      · subst hr
        cases cs with
        | nil => rw [splitFirstLine_cr_nil] at h; simp at h
        | cons c2 cs2 =>
          by_cases hn2 : c2 = '\n'
          · subst hn2
            rw [splitFirstLine_crnl] at h
            simp at h
          · rw [splitFirstLine_cr_cons cs2 hn2] at h
            simp at h
      · rw [splitFirstLine_other cs hn hr] at h ⊢
        exact congrArg (List.cons c) (ih h)

theorem splitFirstLine_some_eq : ∀ (s rest : List Char),
    (splitFirstLine s).2 = some rest →
    s = (splitFirstLine s).1 ++ '\n' :: rest
      ∨ s = (splitFirstLine s).1 ++ '\r' :: rest
      ∨ s = (splitFirstLine s).1 ++ '\r' :: '\n' :: rest := by
  intro s
  induction s with
  | nil => intro rest h; simp [splitFirstLine] at h
  | cons c cs ih =>
    intro rest h
    by_cases hn : c = '\n'
    · subst hn
      rw [splitFirstLine_nl] at h ⊢
      injection h with h2
      subst h2
      left
      rfl
    · by_cases hr : c = '\r'
      · subst hr
        cases cs with
        | nil =>
          rw [splitFirstLine_cr_nil] at h ⊢
          injection h with h2
          subst h2
          right; left
          rfl
        | cons c2 cs2 =>
          by_cases hn2 : c2 = '\n'
          · subst hn2
            rw [splitFirstLine_crnl] at h ⊢
            injection h with h2
            subst h2
            right; right
            rfl
          · rw [splitFirstLine_cr_cons cs2 hn2] at h ⊢
            injection h with h2
            subst h2
            right; left
            rfl
      · rw [splitFirstLine_other cs hn hr] at h ⊢
        rcases ih rest h with h1 | h1 | h1
        · left
          exact congrArg (List.cons c) h1
        · right; left
          exact congrArg (List.cons c) h1
        · right; right
          exact congrArg (List.cons c) h1

theorem slF_congr : ∀ (f1 : Nat) (s : List Char) (f2 : Nat),
    s.length ≤ f1 → s.length ≤ f2 → slF f1 s = slF f2 s := by
  intro f1
  induction f1 with
  | zero =>
    intro s f2 h1 _
    have hs : s = [] := by
      cases s with
      | nil => rfl
      | cons c r => simp at h1
    subst hs
    cases f2 <;> rfl
  | succ f ih =>
    intro s f2 h1 h2
    cases s with
    | nil => cases f2 <;> rfl
    | cons c cs =>
      cases f2 with
      | zero => simp at h2
      | succ f2x =>
        simp only [slF]
        cases hr : (splitFirstLine (c :: cs)).2 with
        | none => rfl
        | some rest =>
          have hlt := splitFirstLine_some_lt (c :: cs) rest hr
          simp only [List.length_cons] at h1 h2 hlt
          show (splitFirstLine (c :: cs)).1 :: slF f rest
            = (splitFirstLine (c :: cs)).1 :: slF f2x rest
          rw [ih rest f2x (by omega) (by omega)]

theorem splitlines_unfold (s : List Char) (h : s ≠ []) :
    splitlines s = (splitFirstLine s).1 :: slTail (splitFirstLine s).2 := by
  cases s with
  | nil => exact absurd rfl h
  | cons c cs =>
    show slF (cs.length + 1) (c :: cs) = _
    simp only [slF]
    cases hr : (splitFirstLine (c :: cs)).2 with
    | none => rfl
    | some rest =>
      have hlt := splitFirstLine_some_lt (c :: cs) rest hr
      simp only [List.length_cons] at hlt
      simp only [slTail]
      show (splitFirstLine (c :: cs)).1 :: slF cs.length rest = _
      rw [slF_congr cs.length rest rest.length (by omega) (Nat.le_refl _)]
      rfl

theorem splitlines_ne_nil (s : List Char) (h : s ≠ []) : splitlines s ≠ [] := by
  rw [splitlines_unfold s h]
  simp

theorem joinNL_cons (l : List Char) (ls : List (List Char)) (h : ls ≠ []) :
    joinNL (l :: ls) = l ++ '\n' :: joinNL ls := by
  cases ls with
  | nil => exact absurd rfl h
  | cons a as => rfl

theorem fnb_some_lt : ∀ {ls : List (List Char)} {i : Nat} {m : List Char},
    firstNonBlank ls = some (i, m) → i < ls.length := by
  intro ls
  induction ls with
  | nil => intro i m h; simp [firstNonBlank] at h
  | cons l ls2 ih =>
    intro i m h
    by_cases hb : isBlankLine l = true
    · have hcons : firstNonBlank (l :: ls2)
          = (firstNonBlank ls2).map (fun q => (q.1 + 1, q.2)) := by
        simp [firstNonBlank, hb]
      rw [hcons] at h
      rcases Option.map_eq_some'.mp h with ⟨⟨j, m2⟩, hj, he⟩
      have := ih hj
      have hij : j + 1 = i := congrArg Prod.fst he
      simp only [List.length_cons]
      omega
    · have hcons : firstNonBlank (l :: ls2) = some (0, l) := by
        simp [firstNonBlank, bool_eq_false hb]
      rw [hcons] at h
      injection h with h2
      have h0 : i = 0 := (congrArg Prod.fst h2).symm
      simp only [List.length_cons]
      omega

theorem fnbF_congr : ∀ (f1 : Nat) (s : List Char) (pos f2 : Nat),
    s.length ≤ f1 → s.length ≤ f2 → fnbF f1 pos s = fnbF f2 pos s := by
  intro f1
  induction f1 with
  | zero =>
    intro s pos f2 h1 _
    have hs : s = [] := by
      cases s with
      | nil => rfl
      | cons c r => simp at h1
    subst hs
    cases f2 <;> rfl
  | succ f ih =>
    intro s pos f2 h1 h2
    cases s with
    | nil => cases f2 <;> rfl
    | cons c cs =>
      cases f2 with
      | zero => simp at h2
      | succ f2x =>
        simp only [fnbF]
        by_cases hb : isBlankLine (splitFirstLine (c :: cs)).1 = true
        · rw [if_pos hb, if_pos hb]
          cases hr : (splitFirstLine (c :: cs)).2 with
          | none => rfl
          | some rest =>
            have hlt := splitFirstLine_some_lt _ rest hr
            simp only [List.length_cons] at h1 h2 hlt
            show fnbF f (pos + ((c :: cs).length - rest.length)) rest
              = fnbF f2x (pos + ((c :: cs).length - rest.length)) rest
            exact ih rest _ f2x (by omega) (by omega)
        · rw [if_neg hb, if_neg hb]

theorem fnbF_shift : ∀ (f : Nat) (s : List Char) (pos : Nat), s.length ≤ f →
    fnbF f pos s = (fnbF s.length 0 s).map (· + pos) := by
  intro f
  induction f with
  | zero =>
    intro s pos h1
    have hs : s = [] := by
      cases s with
      | nil => rfl
      | cons c r => simp at h1
    subst hs
    rfl
  | succ f ih =>
    intro s pos h1
    cases s with
    | nil => rfl
    | cons c cs =>
      show fnbF (f + 1) pos (c :: cs) = (fnbF (cs.length + 1) 0 (c :: cs)).map (· + pos)
      simp only [fnbF]
      by_cases hb : isBlankLine (splitFirstLine (c :: cs)).1 = true
      · rw [if_pos hb, if_pos hb]
        cases hr : (splitFirstLine (c :: cs)).2 with
        | none => rfl
        | some rest =>
          have hlt := splitFirstLine_some_lt _ rest hr
          simp only [List.length_cons] at h1 hlt
          show fnbF f (pos + ((c :: cs).length - rest.length)) rest
            = (fnbF cs.length (0 + ((c :: cs).length - rest.length)) rest).map (· + pos)
          rw [fnbF_congr cs.length rest (0 + ((c :: cs).length - rest.length)) f
            (by omega) (by omega)]
          rw [ih rest _ (by omega), ih rest _ (by omega)]
          cases ho : fnbF rest.length 0 rest with
          | none => rfl
          | some o =>
            simp only [Option.map_some']
            have harith : o + (0 + ((c :: cs).length - rest.length)) + pos
                = o + (pos + ((c :: cs).length - rest.length)) := by omega
            rw [harith]
      · rw [if_neg hb, if_neg hb]
        simp

theorem firstNonBlankStart_unfold (s : List Char) (hne : s ≠ []) :
    firstNonBlankStart s
      = (if isBlankLine (splitFirstLine s).1 then
          match (splitFirstLine s).2 with
          | none => none
          | some rest => (firstNonBlankStart rest).map (· + (s.length - rest.length))
         else some 0) := by
  cases s with
  | nil => exact absurd rfl hne
  | cons c cs =>
    show fnbF (cs.length + 1) 0 (c :: cs) = _
    simp only [fnbF]
    by_cases hb : isBlankLine (splitFirstLine (c :: cs)).1 = true
    · rw [if_pos hb, if_pos hb]
      cases hr : (splitFirstLine (c :: cs)).2 with
      | none => rfl
      | some rest =>
        have hlt := splitFirstLine_some_lt _ rest hr
        simp only [List.length_cons] at hlt
        show fnbF cs.length (0 + ((c :: cs).length - rest.length)) rest
          = (firstNonBlankStart rest).map (· + ((c :: cs).length - rest.length))
        rw [fnbF_shift cs.length rest _ (by omega)]
        show (firstNonBlankStart rest).map (· + (0 + ((c :: cs).length - rest.length))) = _
        cases ho : firstNonBlankStart rest with
        | none => rfl
        | some o =>
          simp only [Option.map_some']
          have : o + (0 + ((c :: cs).length - rest.length))
              = o + ((c :: cs).length - rest.length) := by omega
          rw [this]
    · rw [if_neg hb, if_neg hb]

theorem joinNL_nil : joinNL [] = [] := rfl

theorem joinNL_single (l : List Char) : joinNL [l] = l := rfl

theorem fns_none_iff : ∀ (n : Nat) (x : List Char), x.length ≤ n →
    (firstNonBlankStart x = none ↔ firstNonBlank (splitlines x) = none) := by
  intro n
  induction n with
  | zero =>
    intro x hx
    have hs : x = [] := by
      cases x with
      | nil => rfl
      | cons c r => simp at hx
    subst hs
    simp [firstNonBlankStart, fnbF, splitlines, slF, firstNonBlank]
  | succ m ih =>
    intro x hx
    by_cases hnil : x = []
    · subst hnil
      simp [firstNonBlankStart, fnbF, splitlines, slF, firstNonBlank]
    · rw [firstNonBlankStart_unfold x hnil, splitlines_unfold x hnil]
      by_cases hb : isBlankLine (splitFirstLine x).1 = true
      · rw [if_pos hb]
        cases hr : (splitFirstLine x).2 with
        | none =>
          simp [slTail, firstNonBlank, hb]
        | some rest =>
          have hlt := splitFirstLine_some_lt _ rest hr
          simp only [slTail]
          rw [show firstNonBlank ((splitFirstLine x).1 :: splitlines rest)
              = (firstNonBlank (splitlines rest)).map (fun q => (q.1 + 1, q.2)) from by
            simp [firstNonBlank, hb]]
          simp only [Option.map_eq_none']
          exact ih rest (by omega)
      · rw [if_neg hb]
        rw [show firstNonBlank ((splitFirstLine x).1 :: slTail (splitFirstLine x).2)
            = some (0, (splitFirstLine x).1) from by
          simp [firstNonBlank, bool_eq_false hb]]
        simp

theorem insertLines_of_none (lines : List (List Char)) (doc : List Char)
    (h : firstNonBlank lines = none) :
    insertLines lines doc = reindentDoc [] doc ++ '\n' :: joinNL lines := by
  simp [insertLines, h, joinNL_nil]

theorem insertLines_head_nonblank (l : List Char) (ls : List (List Char)) (doc : List Char)
    (h : isBlankLine l = false) :
    insertLines (l :: ls) doc
      = reindentDoc (l.takeWhile isPySpace) doc ++ '\n' :: joinNL (l :: ls) := by
  have hf : firstNonBlank (l :: ls) = some (0, l) := by
    simp [firstNonBlank, h]
  simp [insertLines, hf, joinNL_nil]

theorem insertLines_cons_blank (l : List Char) (ls : List (List Char)) (doc : List Char)
    (hbl : isBlankLine l = true) (i : Nat) (m : List Char)
    (hfnb : firstNonBlank ls = some (i, m)) :
    insertLines (l :: ls) doc = l ++ '\n' :: insertLines ls doc := by
  have hcons : firstNonBlank (l :: ls) = some (i + 1, m) := by
    simp [firstNonBlank, hbl, hfnb]
  have hlt : i < ls.length := fnb_some_lt hfnb
  have hlsne : ls ≠ [] := by
    intro hx
    subst hx
    simp at hlt
  simp only [insertLines, hcons, hfnb]
  cases i with
  | zero =>
    simp [joinNL, List.append_assoc]
  | succ i0 =>
    have htake : (l :: ls).take (i0 + 1 + 1) = l :: ls.take (i0 + 1) := rfl
    have hdrop : (l :: ls).drop (i0 + 1 + 1) = ls.drop (i0 + 1) := rfl
    have htne : ls.take (i0 + 1) ≠ [] := by
      cases ls with
      | nil => exact absurd rfl hlsne
      | cons a as => simp
    rw [htake, hdrop, joinNL_cons _ _ htne]
    simp [List.append_assoc]

theorem takeWhile_append_of_not_blank : ∀ (l xs : List Char), isBlankLine l = false →
    (l ++ xs).takeWhile isPySpace = l.takeWhile isPySpace := by
  intro l
  induction l with
  | nil => intro xs h; simp [isBlankLine] at h
  | cons c rest ih =>
    intro xs h
    by_cases hc : isPySpace c = true
    · have hrest : isBlankLine rest = false := by
        simp only [isBlankLine, List.all_cons, hc, Bool.true_and] at h
        exact h
      rw [List.cons_append, List.takeWhile_cons_of_pos hc, List.takeWhile_cons_of_pos hc,
        ih xs hrest]
    · have hc2 : isPySpace c = false := bool_eq_false hc
      rw [List.cons_append, List.takeWhile_cons_of_neg (by simp [hc2]),
        List.takeWhile_cons_of_neg (by simp [hc2])]

theorem take_append_k : ∀ (a b : List Char) (k : Nat),
    (a ++ b).take (a.length + k) = a ++ b.take k := by
  intro a
  induction a with
  | nil => intro b k; simp
  | cons c as ih =>
    intro b k
    have harith : (c :: as).length + k = (as.length + k) + 1 := by
      simp [List.length_cons]
      omega
    rw [harith, List.cons_append, List.take_succ_cons, ih]
    rfl

theorem drop_append_k : ∀ (a b : List Char) (k : Nat),
    (a ++ b).drop (a.length + k) = b.drop k := by
  intro a
  induction a with
  | nil => intro b k; simp
  | cons c as ih =>
    intro b k
    have harith : (c :: as).length + k = (as.length + k) + 1 := by
      simp [List.length_cons]
      omega
    rw [harith, List.cons_append, List.drop_succ_cons, ih]

theorem specInsertDoc_of_none (java doc : List Char)
    (h : firstNonBlankStart java = none) :
    specInsertDoc java doc = reindentDoc [] doc ++ '\n' :: java := by
  unfold specInsertDoc
  rw [h]

theorem specInsertDoc_of_some (java doc : List Char) (o : Nat)
    (h : firstNonBlankStart java = some o) :
    specInsertDoc java doc
      = java.take o ++ reindentDoc ((java.drop o).takeWhile isPySpace) doc
        ++ '\n' :: java.drop o := by
  unfold specInsertDoc
  rw [h]

theorem insert_eq_spec_aux : ∀ (n : Nat) (java doc : List Char), java.length ≤ n →
    joinNL (splitlines java) = java →
    insert_doc_comment java doc = specInsertDoc java doc := by
  intro n
  induction n with
  | zero =>
    intro java doc hlen _
    have hj : java = [] := by
      cases java with
      | nil => rfl
      | cons c r => simp at hlen
    subst hj
    rfl
  | succ m ih =>
    intro java doc hlen h
    by_cases hnil : java = []
    · subst hnil
      rfl
    · have hsl := splitlines_unfold java hnil
      cases hr : (splitFirstLine java).2 with
      | none =>
        have hjl : java = (splitFirstLine java).1 := splitFirstLine_none_eq java hr
        have hsl2 : splitlines java = [(splitFirstLine java).1] := by
          rw [hsl, hr]
          rfl
        by_cases hbl : isBlankLine (splitFirstLine java).1 = true
        · have hfnb : firstNonBlank (splitlines java) = none := by
            rw [hsl2]
            simp [firstNonBlank, hbl]
          have hins : insert_doc_comment java doc
              = reindentDoc [] doc ++ '\n' :: java := by
            show insertLines (splitlines java) doc = _
            rw [insertLines_of_none _ _ hfnb, h]
          have hfns : firstNonBlankStart java = none := by
            rw [firstNonBlankStart_unfold java hnil, if_pos hbl, hr]
          rw [hins, specInsertDoc_of_none java doc hfns]
        · have hbl2 := bool_eq_false hbl
          have hins : insert_doc_comment java doc
              = reindentDoc ((splitFirstLine java).1.takeWhile isPySpace) doc
                ++ '\n' :: joinNL [(splitFirstLine java).1] := by
            show insertLines (splitlines java) doc = _
            rw [hsl2]
            exact insertLines_head_nonblank _ [] doc hbl2
          have hfns : firstNonBlankStart java = some 0 := by
            rw [firstNonBlankStart_unfold java hnil, if_neg hbl]
          rw [hins, joinNL_single, ← hjl, specInsertDoc_of_some java doc 0 hfns]
          simp only [List.take_zero, List.drop_zero, List.nil_append]
      | some rest =>
        have hlt := splitFirstLine_some_lt java rest hr
        set l := (splitFirstLine java).1 with hldef
        by_cases hrestnil : rest = []
        · subst hrestnil
          exfalso
          have hsl2 : splitlines java = [l] := by
            rw [hsl, hr]
            rfl
          rw [hsl2, joinNL_single] at h
          rcases splitFirstLine_some_eq java [] hr with h1 | h1 | h1 <;>
            (rw [← hldef] at h1
             rw [h] at h1
             have hlen2 := congrArg List.length h1
             simp only [List.length_append, List.length_cons] at hlen2
             try omega)
        · have hslr : splitlines rest ≠ [] := splitlines_ne_nil rest hrestnil
          have hsl2 : splitlines java = l :: splitlines rest := by
            rw [hsl, hr]
            rfl
          have hjoin : joinNL (l :: splitlines rest) = java := by
            rw [← hsl2]
            exact h
          rw [joinNL_cons _ _ hslr] at hjoin
          have hstruct := splitFirstLine_some_eq java rest hr
          rw [← hldef] at hstruct
          rcases hstruct with h1 | h1 | h1
          · have hJ : joinNL (splitlines rest) = rest := by
              rw [h1] at hjoin
              have h2 := List.append_cancel_left hjoin
              simp only [List.cons.injEq, true_and] at h2
              exact h2
            have hjlen : java.length = l.length + 1 + rest.length := by
              rw [h1]
              simp only [List.length_append, List.length_cons]
              omega
            have hrlen : rest.length ≤ m := by omega
            by_cases hbl : isBlankLine l = true
            · cases ho : firstNonBlankStart rest with
              | none =>
                have hfnbls : firstNonBlank (splitlines rest) = none :=
                  (fns_none_iff rest.length rest (Nat.le_refl _)).mp ho
                have hfnb : firstNonBlank (splitlines java) = none := by
                  rw [hsl2]
                  simp [firstNonBlank, hbl, hfnbls]
                have hins : insert_doc_comment java doc
                    = reindentDoc [] doc ++ '\n' :: java := by
                  show insertLines (splitlines java) doc = _
                  rw [insertLines_of_none _ _ hfnb, h]
                have hfns : firstNonBlankStart java = none := by
                  rw [firstNonBlankStart_unfold java hnil, if_pos hbl, hr]
                  show Option.map (fun x => x + (java.length - rest.length))
                    (firstNonBlankStart rest) = none
                  rw [ho]
                  rfl
                rw [hins, specInsertDoc_of_none java doc hfns]
              | some o =>
                have hfnbne : firstNonBlank (splitlines rest) ≠ none := by
                  intro hx
                  have hcontra := (fns_none_iff rest.length rest (Nat.le_refl _)).mpr hx
                  rw [ho] at hcontra
                  cases hcontra
                obtain ⟨⟨i, mline⟩, hfnbr⟩ :
                    ∃ q, firstNonBlank (splitlines rest) = some q := by
                  cases hq : firstNonBlank (splitlines rest) with
                  | none => exact absurd hq hfnbne
                  | some q => exact ⟨q, rfl⟩
                have hins : insert_doc_comment java doc
                    = l ++ '\n' :: insert_doc_comment rest doc := by
                  show insertLines (splitlines java) doc = _
                  rw [hsl2, insertLines_cons_blank _ _ doc hbl i mline hfnbr]
                  rfl
                have hfns : firstNonBlankStart java
                    = some (o + (java.length - rest.length)) := by
                  rw [firstNonBlankStart_unfold java hnil, if_pos hbl, hr]
                  show Option.map (fun x => x + (java.length - rest.length))
                    (firstNonBlankStart rest) = _
                  rw [ho]
                  rfl
                have hdelta : java.length - rest.length = l.length + 1 := by
                  rw [h1]
                  simp only [List.length_append, List.length_cons]
                  omega
                rw [hins, ih rest doc hrlen hJ,
                  specInsertDoc_of_some java doc _ hfns,
                  specInsertDoc_of_some rest doc o ho, hdelta]
                have hjava2 : java = (l ++ ['\n']) ++ rest := by
                  rw [h1]
                  simp
                have harith : o + (l.length + 1) = (l ++ ['\n']).length + o := by
                  have hlap : (l ++ ['\n']).length = l.length + 1 := by
                    simp
                  rw [hlap]
                  omega
                rw [hjava2, harith, take_append_k, drop_append_k]
                simp [List.append_assoc]
            · have hbl2 := bool_eq_false hbl
              have hins : insert_doc_comment java doc
                  = reindentDoc (l.takeWhile isPySpace) doc
                    ++ '\n' :: joinNL (l :: splitlines rest) := by
                show insertLines (splitlines java) doc = _
                rw [hsl2]
                exact insertLines_head_nonblank _ _ doc hbl2
              have hfns : firstNonBlankStart java = some 0 := by
                rw [firstNonBlankStart_unfold java hnil, if_neg hbl]
              rw [hins, ← hsl2, h, specInsertDoc_of_some java doc 0 hfns]
              simp only [List.take_zero, List.drop_zero, List.nil_append]
              rw [h1, takeWhile_append_of_not_blank _ _ hbl2]
          · exfalso
            rw [h1] at hjoin
            have h2 := List.append_cancel_left hjoin
            injection h2 with hc _
            exact absurd hc (by decide)
          · exfalso
            rw [h1] at hjoin
            have h2 := List.append_cancel_left hjoin
            injection h2 with hc _
            exact absurd hc (by decide)

/-- C4: the claim as stated is refuted by a concrete input. For the
declaration text "m\n" (one line followed by a trailing newline) and the
doc comment "/** d */", the splice engine (insert_doc_comment, jenjoy.py
lines 42-55, which splits on lines and rejoins with "\n".join) returns
"/** d */\nm": the trailing newline of the original text is DROPPED, so
the other lines of the declaration are not left unchanged verbatim.
The spec-side description (specInsertDoc: insert the re-indented comment
immediately before the byte offset of the first non-blank line, leaving
the rest of the text verbatim) returns "/** d */\nm\n". -/
theorem C4_counterexample :
    insert_doc_comment "m\n".toList "/** d */".toList = "/** d */\nm".toList ∧
    specInsertDoc "m\n".toList "/** d */".toList = "/** d */\nm\n".toList ∧
    insert_doc_comment "m\n".toList "/** d */".toList
      ≠ specInsertDoc "m\n".toList "/** d */".toList :=
  ⟨by decide, by decide, by decide⟩

/-- C4 (corrected): for every declaration text that round-trips through
splitlines followed by "\n".join — i.e. it uses only "\n" line
terminators and has no trailing newline, which holds for every
declaration span tree-sitter produces from such a file — the merged text
produced by the splice engine equals the original text with the doc
comment inserted immediately before the first non-blank line, each
non-blank comment line re-indented by prepending that line's
leading-whitespace prefix, blank comment lines left unpadded, and all
other lines unchanged verbatim (specInsertDoc). -/
theorem C4_splice_engine (java_code doc_comment : List Char)
    (h : joinNL (splitlines java_code) = java_code) :
    insert_doc_comment java_code doc_comment = specInsertDoc java_code doc_comment :=
  insert_eq_spec_aux java_code.length java_code doc_comment (Nat.le_refl _) h

/-- C4 witness: a concrete indented declaration satisfying the round-trip
hypothesis, on which the splice engine and the spec-side description
agree. -/
theorem C4_splice_engine_witness :
    joinNL (splitlines "  void m();".toList) = "  void m();".toList ∧
    insert_doc_comment "  void m();".toList "/** A. */".toList
      = specInsertDoc "  void m();".toList "/** A. */".toList :=
  ⟨by decide, C4_splice_engine "  void m();".toList "/** A. */".toList (by decide)⟩
